import Mathlib

/-!
Verification of the event-store core of the TodoList console application
(`src/TodoList.py`): the `Event` record with its (de)serialization, and the
`Diary` store with its CRUD, sorting and persistence operations.

Modelling conventions:
* Python attributes are dynamically typed; every `Event` field holds a JSON
  scalar value (`JVal`).  The claims only ever involve scalar field values.
* The backing JSON file is modelled at the parsed-value level (`BackingFile`):
  `absent` (no file), `invalidJson` (text `json.load` rejects),
  `notArray` (a JSON document that is not a list), or an `array` of items,
  each item either a JSON object (an association list) or `notDict`.
* Python exceptions become `Except PyErr`; `KeyError`, `TypeError` and
  `json.JSONDecodeError` are the ones the store code can raise.
* The store methods print a success/not-found message instead of returning a
  value; the spec abstracts that observable into a returned `Event` / `Bool`,
  and the model does the same: each operation returns the new `Diary` state
  together with that observable.
-/

namespace TodoList

/-- A JSON scalar value, the payload type of every `Event` attribute. -/
inductive JVal : Type
  | jnull : JVal
  | jbool (b : Bool) : JVal
  | jint (n : Int) : JVal
  | jstr (s : String) : JVal
deriving DecidableEq, Repr

/-- Python truthiness of a scalar (`if title:` in `edit_event` uses this):
`None`, `False`, `0` and `""` are falsy. -/
def truthy : JVal → Bool
  | .jnull => false
  | .jbool b => b
  | .jint n => n != 0
  | .jstr s => !s.isEmpty

/-- Lexicographic comparison of character sequences by code point: the
ordering Python's `<=` uses on strings. -/
def charListLe : List Char → List Char → Bool
  | [], _ => true
  | _ :: _, [] => false
  | a :: as, b :: bs => if a = b then charListLe as bs else decide (a < b)

/-- Python's `s <= t` on strings: lexicographic by code point. -/
def strLe (s t : String) : Bool := charListLe s.data t.data

/-- Total comparison on scalar values used to model the sort key comparison.
On two strings it is Python's lexicographic `<=` (by code point), which is the
only case `Diary.sort_events_by_date` exercises (Python raises `TypeError` on
mixed-type keys; the sort theorems assume all dates are strings).  The other
cases extend it to a total preorder so the sorting lemmas apply. -/
def jle : JVal → JVal → Bool
  | .jnull, _ => true
  | _, .jnull => false
  | .jbool x, .jbool y => !x || y
  | .jbool _, _ => true
  | _, .jbool _ => false
  | .jint m, .jint n => decide (m ≤ n)
  | .jint _, _ => true
  | _, .jint _ => false
  | .jstr s, .jstr t => strLe s t

/-- One diary entry: `Event.__init__` stores the five attributes verbatim
(`completed` defaults to `False` at the call sites that omit it). -/
structure Event : Type where
  id : JVal
  title : JVal
  importance : JVal
  date : JVal
  completed : JVal
deriving DecidableEq, Repr

/-- `Event.to_dict`: the JSON object written for one event, with exactly the
five keys in source order. -/
def Event.to_dict (e : Event) : List (String × JVal) :=
  [("id", e.id), ("title", e.title), ("importance", e.importance),
   ("date", e.date), ("completed", e.completed)]

/-- The Python exceptions the store code can raise. -/
inductive PyErr : Type
  | keyError : PyErr
  | typeError : PyErr
  | jsonDecodeError : PyErr
deriving DecidableEq, Repr

instance {ε α : Type} [DecidableEq ε] [DecidableEq α] :
    DecidableEq (Except ε α) := fun
  | .ok a, .ok b =>
      if h : a = b then .isTrue (by rw [h]) else .isFalse (by simp [h])
  | .ok _, .error _ => .isFalse (by simp)
  | .error _, .ok _ => .isFalse (by simp)
  | .error a, .error b =>
      if h : a = b then .isTrue (by rw [h]) else .isFalse (by simp [h])

/-- `data[k]` on a dict: the value when the key is present, `KeyError`
otherwise. -/
def dictGet (kvs : List (String × JVal)) (k : String) : Except PyErr JVal :=
  match kvs.lookup k with
  | some v => .ok v
  | none => .error .keyError

/-- `Event.from_dict`: reads `id`, `title`, `importance`, `date` by direct
indexing (raising `KeyError` when absent) and `completed` via
`data.get('completed', False)`.  No type checking is performed on any value. -/
def Event.from_dict (data : List (String × JVal)) : Except PyErr Event := do
  let i ← dictGet data "id"
  let t ← dictGet data "title"
  let imp ← dictGet data "importance"
  let dt ← dictGet data "date"
  .ok { id := i, title := t, importance := imp, date := dt,
        completed := (data.lookup "completed").getD (.jbool false) }

/-- One element of the top-level JSON array: either an object or some other
JSON value (which `Event.from_dict` cannot index, a `TypeError`). -/
inductive FileItem : Type
  | notDict : FileItem
  | dict (kvs : List (String × JVal)) : FileItem
deriving DecidableEq, Repr

/-- The backing `events.json` file as `load_events` observes it. -/
inductive BackingFile : Type
  | absent : BackingFile
  | invalidJson : BackingFile
  | notArray : BackingFile
  | array (items : List FileItem) : BackingFile
deriving DecidableEq, Repr

/-- The file contents `save_events` writes for a given event list:
`json.dump([event.to_dict() for event in self.events], f)`. -/
def serialize (evs : List Event) : BackingFile :=
  .array (evs.map (fun e => .dict e.to_dict))

/-- The whole store state: the in-memory list plus the backing file. -/
structure Diary : Type where
  events : List Event
  file : BackingFile
deriving DecidableEq, Repr

/-- `[Event.from_dict(event) for event in data]`: converts items left to
right, propagating the first exception. -/
def loadItems : List FileItem → Except PyErr (List Event)
  | [] => .ok []
  | .notDict :: _ => .error .typeError
  | .dict kvs :: rest => do
      let e ← Event.from_dict kvs
      let es ← loadItems rest
      .ok (e :: es)

/-- `Diary.load_events`: empty list when the file does not exist; otherwise
parse (`json.JSONDecodeError` on invalid text), iterate (`TypeError` when the
document is not a list) and convert each record. -/
def load_events : BackingFile → Except PyErr (List Event)
  | .absent => .ok []
  | .invalidJson => .error .jsonDecodeError
  | .notArray => .error .typeError
  | .array items => loadItems items

/-- `Diary.save_events`: rewrites the whole backing file from the current
in-memory list; the list itself is untouched. -/
def save_events (d : Diary) : Diary :=
  { d with file := serialize d.events }

/-- `Diary.get_event_by_id`: linear scan, first match wins, `None` on miss. -/
def get_event_by_id : List Event → JVal → Option Event
  | [], _ => none
  | e :: rest, eid => if e.id = eid then some e else get_event_by_id rest eid

/-- Replaces the first element satisfying `p` by its image under `f`; this is
how a method that mutates the object found by `get_event_by_id` acts on the
list (the found object is the first match). -/
def modifyFirst (p : Event → Bool) (f : Event → Event) : List Event → List Event
  | [] => []
  | e :: rest => if p e then f e :: rest else e :: modifyFirst p f rest

/-- Removes the first element satisfying `p`: `self.events.remove(event)`
where `event` is the first match found by `get_event_by_id`. -/
def removeFirst (p : Event → Bool) : List Event → List Event
  | [] => []
  | e :: rest => if p e then rest else e :: removeFirst p rest

/-- The ids of the store, as `max(event.id for event in self.events)` iterates
them; a non-integer id makes Python's `max(...) + 1` raise `TypeError`. -/
def intIds : List Event → Except PyErr (List Int)
  | [] => .ok []
  | e :: rest =>
      match e.id with
      | .jint n => do
          let ns ← intIds rest
          .ok (n :: ns)
      | _ => .error .typeError

/-- `Diary._generate_id`: `1` on an empty store, else `max(ids) + 1`. -/
def generate_id (evs : List Event) : Except PyErr Int :=
  if evs.isEmpty then .ok 1
  else do
    let ids ← intIds evs
    match ids with
    | [] => .error .typeError
    | x :: xs => .ok (xs.foldl max x + 1)

/-- `Diary.add_event`: generate the id, append the new event (constructed with
the `completed=False` default), save.  The created event is the observable the
spec's `add -> Event` denotes. -/
def add_event (d : Diary) (title importance date : JVal) :
    Except PyErr (Diary × Event) := do
  let n ← generate_id d.events
  let new_event : Event :=
    { id := .jint n, title := title, importance := importance, date := date,
      completed := .jbool false }
  let d1 : Diary := { d with events := d.events ++ [new_event] }
  .ok (save_events d1, new_event)

/-- `if title:` applied to an optional argument (default `None`): a truthy
provided value overwrites, anything else keeps the old attribute. -/
def pickArg (arg : Option JVal) (old : JVal) : JVal :=
  match arg with
  | some v => if truthy v then v else old
  | none => old

/-- `Diary.edit_event`: on a hit, overwrite each truthy-provided field of the
found event and save, reporting success; on a miss, report not-found and leave
the state alone. -/
def edit_event (d : Diary) (eid : JVal)
    (title importance date : Option JVal) : Diary × Bool :=
  match get_event_by_id d.events eid with
  | some _ =>
      let evs :=
        modifyFirst (fun e => decide (e.id = eid))
          (fun e =>
            { e with
              title := pickArg title e.title,
              importance := pickArg importance e.importance,
              date := pickArg date e.date }) d.events
      let d1 : Diary := { d with events := evs }
      (save_events d1, true)
  | none => (d, false)

/-- `Diary.delete_event`: on a hit, remove the found (first-matching) event
and save, reporting success; on a miss, report not-found, no state change. -/
def delete_event (d : Diary) (eid : JVal) : Diary × Bool :=
  match get_event_by_id d.events eid with
  | some _ =>
      let d1 : Diary :=
        { d with events := removeFirst (fun e => decide (e.id = eid)) d.events }
      (save_events d1, true)
  | none => (d, false)

/-- `Diary.mark_completed`: on a hit, set `completed = True` on the found
event and save, reporting success; on a miss, report not-found. -/
def mark_completed (d : Diary) (eid : JVal) : Diary × Bool :=
  match get_event_by_id d.events eid with
  | some _ =>
      let evs :=
        modifyFirst (fun e => decide (e.id = eid))
          (fun e => { e with completed := .jbool true }) d.events
      let d1 : Diary := { d with events := evs }
      (save_events d1, true)
  | none => (d, false)

/-- The sort key comparison `self.events.sort(key=lambda event: event.date)`
induces between two events. -/
def dateLe (a b : Event) : Prop := jle a.date b.date = true

instance : DecidableRel dateLe := fun a b => by
  unfold dateLe; infer_instance

/-- `Diary.sort_events_by_date`: stable ascending sort by the date field
(Python's `list.sort` is stable; a stable sort is modelled by insertion
sort), then save. -/
def sort_events_by_date (d : Diary) : Diary :=
  save_events { d with events := List.insertionSort dateLe d.events }

/-- Every event of the list has an integer id (the data model's normal
state; `_generate_id` raises `TypeError` otherwise). -/
def allIntIds (evs : List Event) : Bool :=
  evs.all (fun e =>
    match e.id with
    | .jint _ => true
    | _ => false)

/-- Every event of the list has a string date (the data model's normal state;
Python's sort raises `TypeError` on mixed-type keys otherwise). -/
def allStrDates (evs : List Event) : Bool :=
  evs.all (fun e =>
    match e.date with
    | .jstr _ => true
    | _ => false)

/-- The list of ids in store order. -/
def eventIds (evs : List Event) : List JVal := evs.map (fun e => e.id)

/-- A record has the four required keys (`completed` is optional). -/
def hasReqKeys (kvs : List (String × JVal)) : Bool :=
  (kvs.lookup "id").isSome && (kvs.lookup "title").isSome &&
  (kvs.lookup "importance").isSome && (kvs.lookup "date").isSome

/-- One array item is structurally valid: a record carrying the required
keys. -/
def itemOk : FileItem → Bool
  | .notDict => false
  | .dict kvs => hasReqKeys kvs

/-- The backing file holds structurally valid data: absent counts as valid
(an empty store), otherwise it must be an array of records each carrying the
required keys. -/
def wellFormedFile : BackingFile → Bool
  | .absent => true
  | .invalidJson => false
  | .notArray => false
  | .array items => items.all itemOk

/-- The store of the spec's sort example: dates
`["2024-05-01", "2023-01-10", "2024-05-01"]` on ids 1, 2, 3. -/
def sortExampleDiary : Diary :=
  { events :=
      [⟨.jint 1, .jstr "a", .jstr "High", .jstr "2024-05-01", .jbool false⟩,
       ⟨.jint 2, .jstr "b", .jstr "High", .jstr "2023-01-10", .jbool false⟩,
       ⟨.jint 3, .jstr "c", .jstr "High", .jstr "2024-05-01", .jbool false⟩],
    file := .absent }

/-- A small concrete store used to instantiate the verified properties. -/
def sampleDiary : Diary :=
  { events :=
      [⟨.jint 1, .jstr "Meeting", .jstr "High", .jstr "2024-06-01", .jbool false⟩,
       ⟨.jint 3, .jstr "Dentist", .jstr "Low", .jstr "2024-06-02", .jbool false⟩,
       ⟨.jint 5, .jstr "Party", .jstr "Medium", .jstr "2024-05-30", .jbool true⟩],
    file := .absent }

/-! ### Helper lemmas -/

theorem charListLe_refl : ∀ as : List Char, charListLe as as = true
  | [] => rfl
  | a :: as => by simp [charListLe, charListLe_refl as]

theorem charListLe_total :
    ∀ as bs : List Char, charListLe as bs = true ∨ charListLe bs as = true
  | [], _ => .inl rfl
  | _ :: _, [] => .inr rfl
  | a :: as, b :: bs => by
    by_cases hab : a = b
    · subst hab
      simpa [charListLe] using charListLe_total as bs
    · rcases lt_or_gt_of_ne hab with h | h
      · left; simp [charListLe, hab, h]
      · right; simp [charListLe, Ne.symm hab, h]

theorem charListLe_trans :
    ∀ as bs cs : List Char, charListLe as bs = true → charListLe bs cs = true →
      charListLe as cs = true
  | [], _, _, _, _ => rfl
  | _ :: _, [], _, h, _ => by simp [charListLe] at h
  | _ :: _, _ :: _, [], _, h => by simp [charListLe] at h
  | a :: as, b :: bs, c :: cs, h₁, h₂ => by
    by_cases hab : a = b <;> by_cases hbc : b = c
    · subst hab; subst hbc
      simp only [charListLe, if_pos rfl] at h₁ h₂ ⊢
      exact charListLe_trans as bs cs h₁ h₂
    · subst hab
      simp only [charListLe, if_pos rfl] at h₁
      simp only [charListLe, if_neg hbc, decide_eq_true_eq] at h₂
      simp [charListLe, hbc, h₂]
    · subst hbc
      simp only [charListLe, if_neg hab, decide_eq_true_eq] at h₁
      simp [charListLe, hab, h₁]
    · simp only [charListLe, if_neg hab, decide_eq_true_eq] at h₁
      simp only [charListLe, if_neg hbc, decide_eq_true_eq] at h₂
      have hac : a < c := lt_trans h₁ h₂
      simp [charListLe, ne_of_lt hac, hac]

theorem strLe_refl (s : String) : strLe s s = true :=
  charListLe_refl s.data

theorem strLe_total (s t : String) : strLe s t = true ∨ strLe t s = true :=
  charListLe_total s.data t.data

theorem strLe_trans {s t u : String} (h₁ : strLe s t = true)
    (h₂ : strLe t u = true) : strLe s u = true :=
  charListLe_trans s.data t.data u.data h₁ h₂

theorem jle_refl : ∀ v : JVal, jle v v = true
  | .jnull => rfl
  | .jbool b => by cases b <;> rfl
  | .jint n => by simp [jle]
  | .jstr s => strLe_refl s

theorem jle_total : ∀ v w : JVal, jle v w = true ∨ jle w v = true := by
  intro v w
  rcases v with _ | x | m | s <;> rcases w with _ | y | n | t <;>
    simp [jle]
  · cases x <;> cases y <;> simp
  · omega
  · exact strLe_total s t

theorem jle_trans :
    ∀ u v w : JVal, jle u v = true → jle v w = true → jle u w = true := by
  intro u v w h₁ h₂
  rcases u with _ | x | m | s <;> rcases v with _ | y | n | t <;>
    rcases w with _ | z | k | r <;> simp_all [jle]
  · cases x <;> cases y <;> cases z <;> simp_all
  · omega
  · exact strLe_trans h₁ h₂

instance : IsTotal Event dateLe :=
  ⟨fun a b => jle_total a.date b.date⟩

instance : IsTrans Event dateLe :=
  ⟨fun a b c => jle_trans a.date b.date c.date⟩

theorem except_bind_ok {ε α β : Type} (a : α) (f : α → Except ε β) :
    (Except.ok a >>= f) = f a := rfl

theorem except_bind_error {ε α β : Type} (e : ε) (f : α → Except ε β) :
    ((Except.error e : Except ε α) >>= f) = .error e := rfl

theorem from_dict_ok {kvs : List (String × JVal)} {i t p dt : JVal}
    (hi : kvs.lookup "id" = some i) (ht : kvs.lookup "title" = some t)
    (hp : kvs.lookup "importance" = some p)
    (hd : kvs.lookup "date" = some dt) :
    Event.from_dict kvs =
      .ok ⟨i, t, p, dt, (kvs.lookup "completed").getD (.jbool false)⟩ := by
  simp [Event.from_dict, dictGet, hi, ht, hp, hd, except_bind_ok]

theorem from_dict_error_iff (kvs : List (String × JVal)) :
    (∃ err, Event.from_dict kvs = .error err) ↔
      (kvs.lookup "id" = none ∨ kvs.lookup "title" = none ∨
       kvs.lookup "importance" = none ∨ kvs.lookup "date" = none) := by
  rcases hi : kvs.lookup "id" with _ | i <;>
    rcases ht : kvs.lookup "title" with _ | t <;>
      rcases hp : kvs.lookup "importance" with _ | p <;>
        rcases hd : kvs.lookup "date" with _ | dt <;>
          simp [Event.from_dict, dictGet, hi, ht, hp, hd, except_bind_ok,
            except_bind_error]

theorem from_dict_to_dict (e : Event) : Event.from_dict e.to_dict = .ok e := by
  rcases e with ⟨i, t, p, dt, c⟩
  rfl

theorem loadItems_serialize :
    ∀ evs : List Event, loadItems (evs.map (fun e => .dict e.to_dict)) = .ok evs
  | [] => rfl
  | e :: rest => by
      simp [loadItems, from_dict_to_dict, loadItems_serialize rest,
        except_bind_ok]

theorem get_event_none_iff (evs : List Event) (eid : JVal) :
    get_event_by_id evs eid = none ↔ ∀ e ∈ evs, e.id ≠ eid := by
  induction evs with
  | nil => simp [get_event_by_id]
  | cons a rest ih =>
      by_cases ha : a.id = eid
      · simp [get_event_by_id, ha]
      · simp [get_event_by_id, ha, ih]

theorem get_event_decomp {evs : List Event} {eid : JVal} {e : Event}
    (h : get_event_by_id evs eid = some e) :
    ∃ pre post, evs = pre ++ e :: post ∧ (∀ x ∈ pre, x.id ≠ eid) ∧
      e.id = eid := by
  induction evs with
  | nil => simp [get_event_by_id] at h
  | cons a rest ih =>
      by_cases ha : a.id = eid
      · rw [get_event_by_id, if_pos ha] at h
        obtain rfl : a = e := by injection h
        exact ⟨[], rest, rfl, by simp, ha⟩
      · rw [get_event_by_id, if_neg ha] at h
        obtain ⟨pre, post, hsplit, hpre, hmatch⟩ := ih h
        exact ⟨a :: pre, post, by simp [hsplit], by simpa [ha] using hpre,
          hmatch⟩

theorem get_event_append (pre : List Event) (e : Event) (post : List Event)
    (eid : JVal) (hpre : ∀ x ∈ pre, x.id ≠ eid) (he : e.id = eid) :
    get_event_by_id (pre ++ e :: post) eid = some e := by
  induction pre with
  | nil => simp [get_event_by_id, he]
  | cons a rest ih =>
      have ha : a.id ≠ eid := hpre a (by simp)
      simp only [List.cons_append, get_event_by_id, if_neg ha]
      exact ih (fun x hx => hpre x (by simp [hx]))

theorem get_event_isSome_iff (evs : List Event) (eid : JVal) :
    (get_event_by_id evs eid).isSome = true ↔ ∃ e ∈ evs, e.id = eid := by
  rcases h : get_event_by_id evs eid with _ | e
  · rw [get_event_none_iff] at h
    simp only [Option.isSome_none]
    constructor
    · intro hfalse; cases hfalse
    · rintro ⟨e, he, hid⟩; exact absurd hid (h e he)
  · obtain ⟨pre, post, hsplit, _, hmatch⟩ := get_event_decomp h
    simp only [Option.isSome_some, true_iff]
    exact ⟨e, by simp [hsplit], hmatch⟩

theorem modifyFirst_append (p : Event → Bool) (f : Event → Event)
    (pre : List Event) (e : Event) (post : List Event)
    (hpre : ∀ x ∈ pre, p x = false) (he : p e = true) :
    modifyFirst p f (pre ++ e :: post) = pre ++ f e :: post := by
  induction pre with
  | nil => simp [modifyFirst, he]
  | cons a rest ih =>
      have ha : p a = false := hpre a (by simp)
      simp only [List.cons_append, modifyFirst, ha, Bool.false_eq_true,
        if_false, List.cons.injEq, true_and]
      exact ih (fun x hx => hpre x (by simp [hx]))

theorem removeFirst_append (p : Event → Bool)
    (pre : List Event) (e : Event) (post : List Event)
    (hpre : ∀ x ∈ pre, p x = false) (he : p e = true) :
    removeFirst p (pre ++ e :: post) = pre ++ post := by
  induction pre with
  | nil => simp [removeFirst, he]
  | cons a rest ih =>
      have ha : p a = false := hpre a (by simp)
      simp only [List.cons_append, removeFirst, ha, Bool.false_eq_true,
        if_false, List.cons.injEq, true_and]
      exact ih (fun x hx => hpre x (by simp [hx]))

theorem modifyFirst_map_ids (p : Event → Bool) (f : Event → Event)
    (hf : ∀ e, (f e).id = e.id) :
    ∀ evs : List Event, eventIds (modifyFirst p f evs) = eventIds evs
  | [] => rfl
  | a :: rest => by
      by_cases ha : p a
      · simp [modifyFirst, ha, eventIds, hf a]
      · simpa [modifyFirst, ha, eventIds] using
          modifyFirst_map_ids p f hf rest

theorem removeFirst_sublist (p : Event → Bool) :
    ∀ evs : List Event, List.Sublist (removeFirst p evs) evs
  | [] => List.Sublist.refl []
  | a :: rest => by
      by_cases ha : p a
      · simp only [removeFirst, ha, if_true]
        exact List.sublist_cons_self a rest
      · simp only [removeFirst, ha, Bool.false_eq_true, if_false]
        exact (removeFirst_sublist p rest).cons₂ a

theorem intIds_map : ∀ (evs : List Event) (ids : List Int),
    intIds evs = .ok ids → evs.map (fun e => e.id) = ids.map JVal.jint
  | [], ids, h => by
      simp only [intIds] at h
      injection h with h
      subst h
      rfl
  | a :: rest, ids, h => by
      rcases ha : a.id with _ | b | n | s <;> simp only [intIds, ha] at h
      case jnull => exact Except.noConfusion h
      case jbool => exact Except.noConfusion h
      case jstr => exact Except.noConfusion h
      case jint =>
        rcases hr : intIds rest with err | ns <;> rw [hr] at h
        · rw [except_bind_error] at h
          exact Except.noConfusion h
        · rw [except_bind_ok] at h
          injection h with h
          subst h
          simp [ha, intIds_map rest ns hr]

theorem allIntIds_spec {evs : List Event} (h : allIntIds evs = true) :
    ∀ e ∈ evs, ∃ n : Int, e.id = JVal.jint n := by
  intro e he
  have hm := List.all_eq_true.mp h e he
  rcases hid : e.id with _ | b | n | s <;> rw [hid] at hm
  · simp at hm
  · simp at hm
  · exact ⟨n, rfl⟩
  · simp at hm

theorem allStrDates_spec {evs : List Event} (h : allStrDates evs = true) :
    ∀ e ∈ evs, ∃ s : String, e.date = JVal.jstr s := by
  intro e he
  have hm := List.all_eq_true.mp h e he
  rcases hd : e.date with _ | b | n | s <;> rw [hd] at hm
  · simp at hm
  · simp at hm
  · simp at hm
  · exact ⟨s, rfl⟩

theorem intIds_exists {evs : List Event}
    (h : ∀ e ∈ evs, ∃ n : Int, e.id = JVal.jint n) :
    ∃ ids, intIds evs = .ok ids := by
  induction evs with
  | nil => exact ⟨[], rfl⟩
  | cons a rest ih =>
      obtain ⟨n, hn⟩ := h a (by simp)
      obtain ⟨ids, hids⟩ := ih (fun e he => h e (by simp [he]))
      exact ⟨n :: ids, by simp [intIds, hn, hids, except_bind_ok]⟩

theorem le_foldl_max :
    ∀ (xs : List Int) (x y : Int), (y ≤ x ∨ y ∈ xs) → y ≤ xs.foldl max x
  | [], x, y, h => by
      rcases h with h | h
      · simpa using h
      · cases h
  | b :: bs, x, y, h => by
      rw [List.foldl_cons]
      apply le_foldl_max bs (max x b) y
      rcases h with h | h
      · exact .inl (le_trans h (le_max_left x b))
      · rcases List.mem_cons.mp h with rfl | h
        · exact .inl (le_max_right x y)
        · exact .inr h

theorem foldl_max_cases :
    ∀ (xs : List Int) (x : Int), xs.foldl max x = x ∨ xs.foldl max x ∈ xs
  | [], _ => .inl rfl
  | b :: bs, x => by
      rw [List.foldl_cons]
      rcases foldl_max_cases bs (max x b) with h | h
      · rcases max_cases x b with ⟨he, _⟩ | ⟨he, _⟩
        · exact .inl (by rw [h, he])
        · exact .inr (by rw [h, he]; simp)
      · exact .inr (by simp [h])

theorem generate_id_exists {evs : List Event}
    (h : ∀ e ∈ evs, ∃ n : Int, e.id = JVal.jint n) :
    ∃ n, generate_id evs = .ok n := by
  rcases evs with _ | ⟨a, rest⟩
  · exact ⟨1, rfl⟩
  · obtain ⟨ids, hids⟩ := intIds_exists h
    have hm := intIds_map _ _ hids
    rcases ids with _ | ⟨x, xs⟩
    · simp at hm
    · exact ⟨xs.foldl max x + 1, by
        simp [generate_id, hids, except_bind_ok]⟩

theorem add_event_ok {d : Diary} {t imp dt : JVal} {d1 : Diary} {ev : Event}
    (h : add_event d t imp dt = .ok (d1, ev)) :
    ∃ n : Int, generate_id d.events = .ok n ∧
      ev = ⟨.jint n, t, imp, dt, .jbool false⟩ ∧
      d1.events = d.events ++ [ev] ∧
      d1.file = serialize (d.events ++ [ev]) := by
  rcases hg : generate_id d.events with err | n <;>
    rw [add_event, hg] at h
  · rw [except_bind_error] at h
    exact Except.noConfusion h
  · rw [except_bind_ok] at h
    injection h with h
    have h1 := congrArg Prod.fst h
    have h2 := congrArg Prod.snd h
    simp only at h1 h2
    refine ⟨n, rfl, h2.symm, ?_, ?_⟩ <;> rw [← h1, ← h2] <;> rfl

theorem generate_id_cons {a : Event} {rest : List Event} {n : Int}
    (hok : generate_id (a :: rest) = .ok n) :
    ∃ x xs, intIds (a :: rest) = .ok (x :: xs) ∧ n = xs.foldl max x + 1 := by
  simp only [generate_id, List.isEmpty_cons, Bool.false_eq_true, if_false] at hok
  rcases hi : intIds (a :: rest) with err | ids <;> rw [hi] at hok
  · rw [except_bind_error] at hok
    exact Except.noConfusion hok
  · rw [except_bind_ok] at hok
    rcases ids with _ | ⟨x, xs⟩
    · exact Except.noConfusion hok
    · injection hok with hok
      exact ⟨x, xs, rfl, hok.symm⟩

theorem generate_id_gt {evs : List Event} {n : Int}
    (hok : generate_id evs = .ok n) :
    ∀ e ∈ evs, ∀ k : Int, e.id = .jint k → k < n := by
  rcases evs with _ | ⟨a, rest⟩
  · simp
  · obtain ⟨x, xs, hi, hn⟩ := generate_id_cons hok
    have hmap := intIds_map _ _ hi
    intro e he k hk
    have hm : JVal.jint k ∈ (x :: xs).map JVal.jint := by
      rw [← hmap, ← hk]
      exact List.mem_map_of_mem _ he
    obtain ⟨k', hk', heq⟩ := List.mem_map.mp hm
    have hkk : k' = k := by injection heq
    rw [hkk] at hk'
    have hle : k ≤ xs.foldl max x := by
      apply le_foldl_max
      rcases List.mem_cons.mp hk' with h | h
      · exact .inl (le_of_eq h)
      · exact .inr h
    omega

theorem generate_id_max {evs : List Event} {n : Int} (hne : evs ≠ [])
    (hok : generate_id evs = .ok n) :
    ∃ m : Int, (∃ e ∈ evs, e.id = .jint m) ∧
      (∀ e ∈ evs, ∀ k : Int, e.id = .jint k → k ≤ m) ∧ n = m + 1 := by
  rcases evs with _ | ⟨a, rest⟩
  · exact absurd rfl hne
  · obtain ⟨x, xs, hi, hn⟩ := generate_id_cons hok
    have hmap := intIds_map _ _ hi
    refine ⟨xs.foldl max x, ?_, ?_, hn⟩
    · have hmem : xs.foldl max x ∈ x :: xs := by
        rcases foldl_max_cases xs x with h | h
        · rw [h]; simp
        · simp [h]
      have : JVal.jint (xs.foldl max x) ∈ (a :: rest).map (fun e => e.id) := by
        rw [hmap]
        exact List.mem_map_of_mem _ hmem
      obtain ⟨e, he, heq⟩ := List.mem_map.mp this
      exact ⟨e, he, heq⟩
    · intro e he k hk
      have hm : JVal.jint k ∈ (x :: xs).map JVal.jint := by
        rw [← hmap, ← hk]
        exact List.mem_map_of_mem _ he
      obtain ⟨k', hk', heq⟩ := List.mem_map.mp hm
      have hkk : k' = k := by injection heq
      rw [hkk] at hk'
      apply le_foldl_max
      rcases List.mem_cons.mp hk' with h | h
      · exact .inl (le_of_eq h)
      · exact .inr h

theorem from_dict_isOk (kvs : List (String × JVal)) :
    (Event.from_dict kvs).isOk = hasReqKeys kvs := by
  rcases hi : kvs.lookup "id" with _ | i <;>
    rcases ht : kvs.lookup "title" with _ | t <;>
      rcases hp : kvs.lookup "importance" with _ | p <;>
        rcases hd : kvs.lookup "date" with _ | dt <;>
          simp [Event.from_dict, dictGet, hasReqKeys, hi, ht, hp, hd,
            except_bind_ok, except_bind_error, Except.isOk, Except.toBool]

theorem loadItems_isOk :
    ∀ items : List FileItem, (loadItems items).isOk = items.all itemOk
  | [] => rfl
  | .notDict :: _ => by
      simp [loadItems, itemOk, Except.isOk, Except.toBool]
  | .dict kvs :: rest => by
      have h1 := from_dict_isOk kvs
      have h2 := loadItems_isOk rest
      simp only [loadItems, List.all_cons, itemOk]
      rcases hfd : Event.from_dict kvs with err | e <;> rw [hfd] at h1
      · have hk : hasReqKeys kvs = false := by
          simpa [Except.isOk, Except.toBool] using h1.symm
        rw [except_bind_error, hk]
        simp [Except.isOk, Except.toBool]
      · have hk : hasReqKeys kvs = true := by
          simpa [Except.isOk, Except.toBool] using h1.symm
        rw [except_bind_ok, hk]
        rcases hr : loadItems rest with err2 | es <;> rw [hr] at h2
        · have hrest : rest.all itemOk = false := by
            simpa [Except.isOk, Except.toBool] using h2.symm
          rw [except_bind_error, hrest]
          simp [Except.isOk, Except.toBool]
        · have hrest : rest.all itemOk = true := by
            simpa [Except.isOk, Except.toBool] using h2.symm
          rw [except_bind_ok, hrest]
          simp [Except.isOk, Except.toBool]

/-! ### Claim theorems -/

/-- C2: for every in-memory collection of events, `save_events` followed by
`load_events` reproduces an equivalent collection — the very same list of
events (same ids, titles, importance, dates, completion flags, same order). -/
theorem save_load_roundtrip (d : Diary) :
    load_events (save_events d).file = .ok d.events := by
  simp [save_events, serialize, load_events, loadItems_serialize]

/-- C9: `load_events` yields the empty collection, with no error, when the
backing file does not exist; it succeeds exactly on well-formed files, so an
error can only arise when the file exists but holds invalid structured
data. -/
theorem load_events_spec :
    load_events .absent = .ok [] ∧
    (∀ f : BackingFile, (load_events f).isOk = wellFormedFile f) ∧
    (∀ (f : BackingFile) (err : PyErr), load_events f = .error err →
      f ≠ .absent ∧ wellFormedFile f = false) := by
  have hok : ∀ f : BackingFile, (load_events f).isOk = wellFormedFile f := by
    intro f
    rcases f with _ | _ | _ | items
    · rfl
    · rfl
    · rfl
    · simpa [load_events, wellFormedFile] using loadItems_isOk items
  refine ⟨rfl, hok, ?_⟩
  intro f err h
  constructor
  · intro hf
    rw [hf] at h
    exact Except.noConfusion h
  · have := hok f
    rw [h] at this
    simpa [Except.isOk, Except.toBool] using this.symm

/-- C9 witness: a file holding a JSON array whose element is not an object is
rejected, and indeed exists and is ill-formed. -/
theorem load_events_spec_witness :
    BackingFile.array [FileItem.notDict] ≠ BackingFile.absent ∧
    wellFormedFile (BackingFile.array [FileItem.notDict]) = false :=
  load_events_spec.2.2 (BackingFile.array [FileItem.notDict])
    PyErr.typeError (by rfl)

/-- C7 counterexample: the claim says `from_dict` fails whenever `id` holds a
value of the wrong type, but a record whose `id` is the string `"boom"`
(the backing-file schema requires an integer) is accepted unchanged. -/
theorem from_dict_wrong_type_accepted :
    Event.from_dict
      [("id", .jstr "boom"), ("title", .jstr "t"),
       ("importance", .jstr "High"), ("date", .jstr "2024-01-02")] =
      .ok ⟨.jstr "boom", .jstr "t", .jstr "High", .jstr "2024-01-02",
        .jbool false⟩ := by
  decide

/-- C7 amended: `from_dict` returns an Event whose completed flag defaults to
false when the `completed` key is absent, and fails (with a `KeyError`)
exactly when one of `id`, `title`, `importance`, `date` is missing; present
values are taken as-is, with no type checking. -/
theorem from_dict_amended_spec (data : List (String × JVal)) :
    ((∃ err, Event.from_dict data = .error err) ↔
      (data.lookup "id" = none ∨ data.lookup "title" = none ∨
       data.lookup "importance" = none ∨ data.lookup "date" = none)) ∧
    (∀ i t p dt : JVal, data.lookup "id" = some i →
      data.lookup "title" = some t → data.lookup "importance" = some p →
      data.lookup "date" = some dt →
      Event.from_dict data =
        .ok ⟨i, t, p, dt, (data.lookup "completed").getD (.jbool false)⟩) :=
  ⟨from_dict_error_iff data,
   fun _ _ _ _ hi ht hp hd => from_dict_ok hi ht hp hd⟩

/-- C7 amended witness: a record with the four required keys and no
`completed` key parses to an event whose completed flag is false. -/
theorem from_dict_amended_witness :
    Event.from_dict
      [("id", .jint 4), ("title", .jstr "x"),
       ("importance", .jstr "Low"), ("date", .jstr "2024-02-03")] =
      .ok ⟨.jint 4, .jstr "x", .jstr "Low", .jstr "2024-02-03",
        .jbool false⟩ :=
  (from_dict_amended_spec _).2 _ _ _ _ rfl rfl rfl rfl

/-- C5: deleting an id not present in the store reports false and leaves both
the in-memory collection and the backing file untouched; deleting a present
id removes the first matching event, persists, and reports true. -/
theorem delete_event_spec (d : Diary) (eid : JVal) :
    ((∀ e ∈ d.events, e.id ≠ eid) → delete_event d eid = (d, false)) ∧
    ((∃ e ∈ d.events, e.id = eid) →
      ∃ pre ev post, d.events = pre ++ ev :: post ∧
        (∀ x ∈ pre, x.id ≠ eid) ∧ ev.id = eid ∧
        (delete_event d eid).1.events = pre ++ post ∧
        (delete_event d eid).1.file = serialize (pre ++ post) ∧
        (delete_event d eid).2 = true) := by
  constructor
  · intro h
    have hnone : get_event_by_id d.events eid = none :=
      (get_event_none_iff _ _).mpr h
    simp [delete_event, hnone]
  · intro h
    have hsome : (get_event_by_id d.events eid).isSome = true :=
      (get_event_isSome_iff _ _).mpr h
    rcases hg : get_event_by_id d.events eid with _ | ev
    · rw [hg] at hsome
      simp at hsome
    · obtain ⟨pre, post, hsplit, hpre, hmatch⟩ := get_event_decomp hg
      have hrem : removeFirst (fun e => decide (e.id = eid)) d.events =
          pre ++ post := by
        rw [hsplit]
        exact removeFirst_append _ pre ev post
          (fun x hx => by simp [hpre x hx]) (by simp [hmatch])
      exact ⟨pre, ev, post, hsplit, hpre, hmatch,
        by simp [delete_event, hg, save_events, hrem],
        by simp [delete_event, hg, save_events, hrem],
        by simp [delete_event, hg]⟩

/-- C5 witness: deleting the absent id 7 from the sample store returns false
and changes nothing. -/
theorem delete_event_spec_witness :
    delete_event sampleDiary (JVal.jint 7) = (sampleDiary, false) :=
  (delete_event_spec sampleDiary (JVal.jint 7)).1 (by decide)

/-- C10: when the store contains an event with the given id,
`mark_completed` changes only that (first-matching) event, and of it only the
completed flag; every other event, the order, and the length of the
collection are untouched, and the call reports found. -/
theorem mark_completed_frame (d : Diary) (eid : JVal) (ev : Event)
    (h : get_event_by_id d.events eid = some ev) :
    ∃ pre post, d.events = pre ++ ev :: post ∧
      (∀ x ∈ pre, x.id ≠ eid) ∧ ev.id = eid ∧
      (mark_completed d eid).2 = true ∧
      (mark_completed d eid).1.events =
        pre ++ { ev with completed := .jbool true } :: post ∧
      (mark_completed d eid).1.events.length = d.events.length := by
  obtain ⟨pre, post, hsplit, hpre, hmatch⟩ := get_event_decomp h
  have hmod : modifyFirst (fun e => decide (e.id = eid))
      (fun e => { e with completed := .jbool true }) d.events =
      pre ++ { ev with completed := .jbool true } :: post := by
    rw [hsplit]
    exact modifyFirst_append _ _ pre ev post
      (fun x hx => by simp [hpre x hx]) (by simp [hmatch])
  refine ⟨pre, post, hsplit, hpre, hmatch, ?_, ?_, ?_⟩
  · simp [mark_completed, h]
  · simp [mark_completed, h, save_events, hmod]
  · have hev : (mark_completed d eid).1.events =
        pre ++ { ev with completed := .jbool true } :: post := by
      simp [mark_completed, h, save_events, hmod]
    rw [hev, hsplit]
    simp

/-- C10 witness: marking id 3 in the sample store reports found. -/
theorem mark_completed_frame_witness :
    (mark_completed sampleDiary (JVal.jint 3)).2 = true := by
  obtain ⟨_, _, _, _, _, hfound, _, _⟩ :=
    mark_completed_frame sampleDiary (JVal.jint 3)
      ⟨.jint 3, .jstr "Dentist", .jstr "Low", .jstr "2024-06-02",
        .jbool false⟩ (by decide)
  exact hfound

/-- C6: when the store contains an event with the given id, `mark_completed`
sets that event's completed flag to true and reports found; applying it a
second time reports found again and leaves the whole store state (events and
file) exactly as after the first application. -/
theorem mark_completed_idempotent (d : Diary) (eid : JVal)
    (h : ∃ e ∈ d.events, e.id = eid) :
    (mark_completed d eid).2 = true ∧
    (mark_completed (mark_completed d eid).1 eid).2 = true ∧
    (mark_completed (mark_completed d eid).1 eid).1 =
      (mark_completed d eid).1 ∧
    (∃ ev, get_event_by_id (mark_completed d eid).1.events eid = some ev ∧
      ev.completed = .jbool true) := by
  have hsome : (get_event_by_id d.events eid).isSome = true :=
    (get_event_isSome_iff _ _).mpr h
  rcases hg : get_event_by_id d.events eid with _ | ev
  · rw [hg] at hsome
    simp at hsome
  · obtain ⟨pre, post, hsplit, hpre, hmatch⟩ := get_event_decomp hg
    have hmod1 : modifyFirst (fun e => decide (e.id = eid))
        (fun e => { e with completed := .jbool true }) d.events =
        pre ++ { ev with completed := .jbool true } :: post := by
      rw [hsplit]
      exact modifyFirst_append _ _ pre ev post
        (fun x hx => by simp [hpre x hx]) (by simp [hmatch])
    have hd1 : mark_completed d eid =
        ({ events := pre ++ { ev with completed := .jbool true } :: post,
           file := serialize
             (pre ++ { ev with completed := .jbool true } :: post) }, true) := by
      simp [mark_completed, hg, save_events, hmod1]
    have hg2 : get_event_by_id
        (pre ++ { ev with completed := .jbool true } :: post) eid =
        some { ev with completed := .jbool true } :=
      get_event_append pre _ post eid hpre hmatch
    have hmod2 : modifyFirst (fun e => decide (e.id = eid))
        (fun e => { e with completed := .jbool true })
        (pre ++ { ev with completed := .jbool true } :: post) =
        pre ++ { ev with completed := .jbool true } :: post :=
      modifyFirst_append _ _ pre _ post
        (fun x hx => by simp [hpre x hx]) (by simp [hmatch])
    refine ⟨by rw [hd1], ?_, ?_, ?_⟩
    · rw [hd1]
      simp [mark_completed, hg2]
    · rw [hd1]
      simp [mark_completed, hg2, save_events, hmod2]
    · rw [hd1]
      exact ⟨{ ev with completed := .jbool true }, hg2, rfl⟩

/-- C6 witness: marking id 1 in the sample store reports found. -/
theorem mark_completed_idempotent_witness :
    (mark_completed sampleDiary (JVal.jint 1)).2 = true :=
  (mark_completed_idempotent sampleDiary (JVal.jint 1) (by decide)).1

/-- C3: when the store contains an event with the given id, `edit_event`
reports found, leaves every other event (and the order) untouched, and
rewrites the found event field by field through `pickArg`: a provided truthy
(non-empty) argument overwrites the field, a missing or falsy argument keeps
the prior value; the id and completed flag are never touched, and the new
collection is persisted. -/
theorem edit_event_spec (d : Diary) (eid : JVal) (ev : Event)
    (t imp dt : Option JVal)
    (h : get_event_by_id d.events eid = some ev) :
    (∃ pre post, d.events = pre ++ ev :: post ∧
      (∀ x ∈ pre, x.id ≠ eid) ∧ ev.id = eid ∧
      (edit_event d eid t imp dt).2 = true ∧
      (edit_event d eid t imp dt).1.events =
        pre ++
          { ev with
            title := pickArg t ev.title,
            importance := pickArg imp ev.importance,
            date := pickArg dt ev.date } :: post ∧
      (edit_event d eid t imp dt).1.file =
        serialize (edit_event d eid t imp dt).1.events) ∧
    (∀ (o : Option JVal) (old : JVal),
      ((o = none ∨ ∃ v, o = some v ∧ truthy v = false) →
        pickArg o old = old) ∧
      (∀ v, o = some v → truthy v = true → pickArg o old = v)) := by
  constructor
  · obtain ⟨pre, post, hsplit, hpre, hmatch⟩ := get_event_decomp h
    have hmod : modifyFirst (fun e => decide (e.id = eid))
        (fun e =>
          { e with
            title := pickArg t e.title,
            importance := pickArg imp e.importance,
            date := pickArg dt e.date }) d.events =
        pre ++
          { ev with
            title := pickArg t ev.title,
            importance := pickArg imp ev.importance,
            date := pickArg dt ev.date } :: post := by
      rw [hsplit]
      exact modifyFirst_append _ _ pre ev post
        (fun x hx => by simp [hpre x hx]) (by simp [hmatch])
    refine ⟨pre, post, hsplit, hpre, hmatch, ?_, ?_, ?_⟩
    · simp [edit_event, h]
    · simp [edit_event, h, save_events, hmod]
    · simp [edit_event, h, save_events, hmod]
  · intro o old
    constructor
    · rintro (rfl | ⟨v, rfl, hv⟩)
      · rfl
      · simp [pickArg, hv]
    · rintro v rfl hv
      simp [pickArg, hv]

/-- C3 witness: editing only the title of id 1 in the sample store reports
found. -/
theorem edit_event_spec_witness :
    (edit_event sampleDiary (JVal.jint 1)
      (some (JVal.jstr "X")) none none).2 = true := by
  obtain ⟨⟨_, _, _, _, _, hfound, _, _⟩, _⟩ :=
    edit_event_spec sampleDiary (JVal.jint 1)
      ⟨.jint 1, .jstr "Meeting", .jstr "High", .jstr "2024-06-01",
        .jbool false⟩
      (some (JVal.jstr "X")) none none (by decide)
  exact hfound

/-- C1: on a store whose ids are integers, `add_event` appends exactly one
new event with `completed = false` and id `max(existing ids) + 1` (or `1` on
an empty store), persists, and hands back the created event; moreover,
deleting that event — the holder of the current maximum id — and adding
again reassigns the very same id. -/
theorem add_event_spec (d : Diary) (t imp dt : JVal)
    (h : allIntIds d.events = true) :
    ∃ (d1 : Diary) (ev : Event),
      add_event d t imp dt = .ok (d1, ev) ∧
      d1.events = d.events ++ [ev] ∧
      d1.file = serialize (d.events ++ [ev]) ∧
      ev.title = t ∧ ev.importance = imp ∧ ev.date = dt ∧
      ev.completed = .jbool false ∧
      (d.events = [] → ev.id = .jint 1) ∧
      (d.events ≠ [] → ∃ m : Int, (∃ e ∈ d.events, e.id = .jint m) ∧
        (∀ e ∈ d.events, ∀ k : Int, e.id = .jint k → k ≤ m) ∧
        ev.id = .jint (m + 1)) ∧
      delete_event d1 ev.id =
        ({ events := d.events, file := serialize d.events }, true) ∧
      (∀ t2 imp2 dt2 : JVal, ∃ (d2 : Diary) (ev2 : Event),
        add_event (delete_event d1 ev.id).1 t2 imp2 dt2 = .ok (d2, ev2) ∧
        ev2.id = ev.id) := by
  have hall := allIntIds_spec h
  obtain ⟨n, hn⟩ := generate_id_exists hall
  have hadd : add_event d t imp dt =
      .ok (save_events
        { d with events :=
            d.events ++ [⟨.jint n, t, imp, dt, .jbool false⟩] },
        ⟨.jint n, t, imp, dt, .jbool false⟩) := by
    simp [add_event, hn, except_bind_ok]
  have hgt := generate_id_gt hn
  have hpre : ∀ x ∈ d.events, x.id ≠ JVal.jint n := by
    intro x hx hxe
    obtain ⟨k, hk⟩ := hall x hx
    rw [hk] at hxe
    have hkn : k = n := by injection hxe
    have := hgt x hx k hk
    omega
  have hget : get_event_by_id
      (d.events ++ [⟨.jint n, t, imp, dt, .jbool false⟩]) (.jint n) =
      some ⟨.jint n, t, imp, dt, .jbool false⟩ :=
    get_event_append d.events _ [] (.jint n) hpre rfl
  have hrem : removeFirst (fun e => decide (e.id = JVal.jint n))
      (d.events ++ [⟨.jint n, t, imp, dt, .jbool false⟩]) =
      d.events ++ [] :=
    removeFirst_append _ d.events _ []
      (fun x hx => by simp [hpre x hx]) (by simp)
  have hdel : delete_event
      (save_events
        { d with events :=
            d.events ++ [⟨.jint n, t, imp, dt, .jbool false⟩] })
      (JVal.jint n) =
      ({ events := d.events, file := serialize d.events }, true) := by
    simp [delete_event, save_events, hget, hrem]
  refine ⟨_, _, hadd, rfl, rfl, rfl, rfl, rfl, rfl, ?_, ?_, hdel, ?_⟩
  · intro he
    rw [he] at hn
    have : n = 1 := by
      have h1 : Except.ok (ε := PyErr) 1 = .ok n := hn
      injection h1 with h1
      omega
    simp [this]
  · intro hne
    obtain ⟨m, hmem, hub, hnm⟩ := generate_id_max hne hn
    exact ⟨m, hmem, hub, by simp [hnm]⟩
  · intro t2 imp2 dt2
    rw [hdel]
    refine ⟨save_events
      { events := d.events ++ [⟨.jint n, t2, imp2, dt2, .jbool false⟩],
        file := serialize d.events },
      ⟨.jint n, t2, imp2, dt2, .jbool false⟩, ?_, rfl⟩
    simp [add_event, hn, except_bind_ok]

/-- C1 witness: adding to the sample store (integer ids 1, 3, 5)
succeeds. -/
theorem add_event_spec_witness :
    (add_event sampleDiary (JVal.jstr "T") (JVal.jstr "H")
      (JVal.jstr "2024-07-01")).isOk = true := by
  obtain ⟨d1, ev, hadd, _⟩ :=
    add_event_spec sampleDiary (JVal.jstr "T") (JVal.jstr "H")
      (JVal.jstr "2024-07-01") (by decide)
  rw [hadd]
  rfl

/-- C8: starting from a store with pairwise-distinct ids, every operation
(`add_event` when it succeeds, `edit_event`, `delete_event`,
`mark_completed`, `sort_events_by_date`) leaves the ids pairwise
distinct. -/
theorem ops_preserve_id_nodup (d : Diary)
    (hnd : (eventIds d.events).Nodup) :
    (∀ (t imp dt : JVal) (d1 : Diary) (ev : Event),
        add_event d t imp dt = .ok (d1, ev) →
        (eventIds d1.events).Nodup) ∧
    (∀ (eid : JVal) (t imp dt : Option JVal),
        (eventIds (edit_event d eid t imp dt).1.events).Nodup) ∧
    (∀ eid : JVal, (eventIds (delete_event d eid).1.events).Nodup) ∧
    (∀ eid : JVal, (eventIds (mark_completed d eid).1.events).Nodup) ∧
    (eventIds (sort_events_by_date d).events).Nodup := by
  refine ⟨?_, ?_, ?_, ?_, ?_⟩
  · intro t imp dt d1 ev hadd
    obtain ⟨n, hn, hev, hevents, _⟩ := add_event_ok hadd
    have hgt := generate_id_gt hn
    have hnotmem : JVal.jint n ∉ eventIds d.events := by
      intro hmem
      simp only [eventIds, List.mem_map] at hmem
      obtain ⟨e, he, heq⟩ := hmem
      exact absurd (hgt e he n heq) (lt_irrefl n)
    have heq : eventIds d1.events = eventIds d.events ++ [JVal.jint n] := by
      rw [hevents, hev]
      simp [eventIds]
    rw [heq, List.nodup_append]
    refine ⟨hnd, List.nodup_singleton _, ?_⟩
    intro a ha hb
    simp only [List.mem_singleton] at hb
    subst hb
    exact hnotmem ha
  · intro eid t imp dt
    rcases hg : get_event_by_id d.events eid with _ | ev
    · simpa [edit_event, hg] using hnd
    · have hev : (edit_event d eid t imp dt).1.events =
          modifyFirst (fun e => decide (e.id = eid))
            (fun e =>
              { e with
                title := pickArg t e.title,
                importance := pickArg imp e.importance,
                date := pickArg dt e.date }) d.events := by
        simp [edit_event, hg, save_events]
      have hids := modifyFirst_map_ids (fun e => decide (e.id = eid))
        (fun e =>
          { e with
            title := pickArg t e.title,
            importance := pickArg imp e.importance,
            date := pickArg dt e.date }) (fun e => rfl) d.events
      rw [hev, hids]
      exact hnd
  · intro eid
    rcases hg : get_event_by_id d.events eid with _ | ev
    · simpa [delete_event, hg] using hnd
    · have hev : (delete_event d eid).1.events =
          removeFirst (fun e => decide (e.id = eid)) d.events := by
        simp [delete_event, hg, save_events]
      rw [hev]
      simp only [eventIds] at hnd ⊢
      exact List.Nodup.sublist
        ((removeFirst_sublist _ d.events).map (fun e => e.id)) hnd
  · intro eid
    rcases hg : get_event_by_id d.events eid with _ | ev
    · simpa [mark_completed, hg] using hnd
    · have hev : (mark_completed d eid).1.events =
          modifyFirst (fun e => decide (e.id = eid))
            (fun e => { e with completed := .jbool true }) d.events := by
        simp [mark_completed, hg, save_events]
      have hids := modifyFirst_map_ids (fun e => decide (e.id = eid))
        (fun e => { e with completed := .jbool true })
        (fun e => rfl) d.events
      rw [hev, hids]
      exact hnd
  · have hperm := (List.perm_insertionSort dateLe d.events).map
      (fun e => e.id)
    simp only [eventIds] at hnd ⊢
    exact hperm.nodup_iff.mpr hnd

/-- C8 witness: sorting the sample store (distinct ids 1, 3, 5) keeps the
ids distinct. -/
theorem ops_preserve_id_nodup_witness :
    (eventIds (sort_events_by_date sampleDiary).events).Nodup :=
  (ops_preserve_id_nodup sampleDiary (by decide)).2.2.2.2

/-- C4: on a store whose dates are strings, `sort_events_by_date` permutes
the collection into an order ascending under the lexicographic string
comparison, preserves the original relative order of events with equal dates
(stability), and persists the new order; on the spec's example (dates
2024-05-01, 2023-01-10, 2024-05-01 with ids 1, 2, 3) the result is ids
2, 1, 3. -/
theorem sort_events_by_date_spec :
    (∀ d : Diary, allStrDates d.events = true →
      ((sort_events_by_date d).events.Perm d.events ∧
       (sort_events_by_date d).events.Pairwise
         (fun a b => ∃ s u, a.date = JVal.jstr s ∧ b.date = JVal.jstr u ∧
           strLe s u = true) ∧
       (∀ c : List Event, c.Pairwise (fun a b => a.date = b.date) →
         List.Sublist c d.events →
         List.Sublist c (sort_events_by_date d).events) ∧
       (sort_events_by_date d).file =
         serialize (sort_events_by_date d).events)) ∧
    (sort_events_by_date sortExampleDiary).events.map (fun e => e.id) =
      [JVal.jint 2, JVal.jint 1, JVal.jint 3] := by
  constructor
  · intro d hstr
    have hdates := allStrDates_spec hstr
    have hev : (sort_events_by_date d).events =
        List.insertionSort dateLe d.events := rfl
    refine ⟨?_, ?_, ?_, rfl⟩
    · rw [hev]
      exact List.perm_insertionSort dateLe d.events
    · rw [hev]
      have hsorted : (List.insertionSort dateLe d.events).Pairwise dateLe :=
        List.sorted_insertionSort dateLe d.events
      refine hsorted.imp_of_mem ?_
      intro a b ha hb hab
      obtain ⟨s, hs⟩ := hdates a ((List.mem_insertionSort dateLe).mp ha)
      obtain ⟨u, hu⟩ := hdates b ((List.mem_insertionSort dateLe).mp hb)
      refine ⟨s, u, hs, hu, ?_⟩
      have hj : jle a.date b.date = true := hab
      rw [hs, hu] at hj
      simpa [jle] using hj
    · intro c hc hsub
      rw [hev]
      refine List.sublist_insertionSort ?_ hsub
      refine hc.imp ?_
      intro a b hab
      unfold dateLe
      rw [hab]
      exact jle_refl _
  · decide

/-- C4 witness: sorting the example store yields a permutation of it. -/
theorem sort_events_by_date_spec_witness :
    (sort_events_by_date sortExampleDiary).events.Perm
      sortExampleDiary.events :=
  (sort_events_by_date_spec.1 sortExampleDiary (by decide)).1

end TodoList
